import Mathlib

/-
Verification of the multichan one-to-many broadcast stream
(`multichan.go`, the mutex/condition-variable implementation with the
`items` / `offset` / `readerpos` representation).

Shallow embedding:
  * `MChan α` is the writer state `W`: the `zero` value, the `closed`
    flag, the physically retained `items`, the global position `offset`
    of `items[0]`, and `readerpos`, each reader's acknowledged position
    in the stream (`-1` marks a disposed-of reader).  The Go code stores
    `interface{}` values with a reflect-based type check on `Write`; the
    embedding is monomorphic in `α`, so the type check always passes and
    is omitted.
  * `RState` is a reader handle `R`: its `id` (index into `readerpos`)
    and its private position `pos`.
  * Go slice indexing panics on an out-of-range (or negative) index;
    the embedding returns `none` / `ReadOutcome.fault` there.
  * The blocking `Read(ctx)` is modelled by `read`, which evaluates one
    round of the wait-loop condition and the following exit checks.  Its
    context argument is `Option Bool`: `none` is a nil context, and
    `some c` is a non-nil context whose `Err() != nil` test currently
    yields `c`.  The outcome is `ReadOutcome.block` exactly when the Go
    code calls `cond.Wait()`; a woken reader re-runs the same check, so
    a wake is modelled by applying `read` to the new state.
-/

set_option maxHeartbeats 1000000

namespace Multichan

structure MChan (α : Type) where
  zero : α
  closed : Bool
  items : List α
  offset : Nat
  readerpos : List Int
deriving DecidableEq

structure RState where
  id : Nat
  pos : Nat
deriving DecidableEq

variable {α : Type}

/-- Embedding of `New`: fresh multichan with the given zero value. -/
def new (z : α) : MChan α := ⟨z, false, [], 0, []⟩

/-- Embedding of `streamlen`: `offset + len(items)`, the end of the logical stream. -/
def streamlen (w : MChan α) : Nat := w.offset + w.items.length

/-- Embedding of `item`: `items[pos-offset]`.  `none` models the Go panic on an
out-of-range (possibly negative) index. -/
def itemAt (w : MChan α) (pos : Nat) : Option α :=
  if pos < w.offset then none else w.items[pos - w.offset]?

/-- One iteration of `trim`'s minimum loop:
`if p >= 0 && p < min { min = p }`. -/
def trimStep (m p : Int) : Int := if 0 ≤ p ∧ p < m then p else m

/-- The `min` computed by `trim`: fold of `trimStep` over `readerpos`
starting from `streamlen()`. -/
def trimMin (w : MChan α) : Int :=
  w.readerpos.foldl trimStep ((streamlen w : Int))

/-- Embedding of `trim`: drop the items no active reader still needs.
`if delta := min - w.offset; delta > 0 { items = items[delta:]; offset += delta }` -/
def trim (w : MChan α) : MChan α :=
  if 0 < trimMin w - (w.offset : Int) then
    { w with items := w.items.drop (trimMin w - (w.offset : Int)).toNat,
             offset := w.offset + (trimMin w - (w.offset : Int)).toNat }
  else w

/-- Embedding of `Write`: append the item, then `trim` (then `cond.Broadcast()`,
which does not change the state). -/
def write (w : MChan α) (x : α) : MChan α :=
  trim { w with items := w.items ++ [x] }

/-- Embedding of `Close`: set `closed` (then `cond.Broadcast()`). -/
def close (w : MChan α) : MChan α := { w with closed := true }

/-- Embedding of `Reader`: append a `0` entry to `readerpos` and return the handle
`{id: len(readerpos), pos: w.offset}`. -/
def reader (w : MChan α) : MChan α × RState :=
  ({ w with readerpos := w.readerpos ++ [(0 : Int)] },
   ⟨w.readerpos.length, w.offset⟩)

/-- Embedding of `Dispose`: `readerpos[r.id] = -1`, then `trim`. -/
def dispose (w : MChan α) (i : Nat) : MChan α :=
  trim { w with readerpos := w.readerpos.set i (-1) }

/-- Embedding of `doRead`: read `items[pos-offset]`, advance `pos`, store it in
`readerpos[id]`, `trim`.  `none` models the Go panics (item index out of
range, or `readerpos[id]` out of range). -/
def doRead (w : MChan α) (r : RState) : Option (α × MChan α × RState) :=
  match itemAt w r.pos with
  | none => none
  | some x =>
      if r.id < w.readerpos.length then
        some (x,
              trim { w with readerpos := w.readerpos.set r.id ((r.pos + 1 : Nat) : Int) },
              ⟨r.id, r.pos + 1⟩)
      else none

/-- Embedding of `NBRead`: `(zero, false)` if `pos >= streamlen()`, else `doRead`.
`none` models a panic inside `doRead`. -/
def nbread (w : MChan α) (r : RState) : Option ((α × Bool) × MChan α × RState) :=
  if streamlen w ≤ r.pos then some ((w.zero, false), w, r)
  else
    match doRead w r with
    | none => none
    | some (x, w', r') => some ((x, true), w', r')

/-- Result of one evaluation round of the blocking `Read`. -/
inductive ReadOutcome (α : Type) where
  | ret (x : α) (ok : Bool) (w : MChan α) (r : RState)
  | block
  | fault
deriving DecidableEq

/-- The checks `Read` performs after its wait loop exits:
`if (ctx != nil && ctx.Err() != nil) || r.pos >= r.w.streamlen() { return zero, false }`,
otherwise `return r.doRead(), true`. -/
def readExit (ctx : Option Bool) (w : MChan α) (r : RState) : ReadOutcome α :=
  if ctx = some true ∨ streamlen w ≤ r.pos then .ret w.zero false w r
  else
    match doRead w r with
    | none => .fault
    | some (x, w', r') => .ret x true w' r'

/-- One evaluation round of `Read`'s wait-loop condition
`r.pos >= r.w.streamlen() && !r.w.closed && ctx.Err() == nil` followed,
when the loop exits, by `readExit`.  When the first two conjuncts hold,
Go evaluates `ctx.Err()` with no nil check: a nil context is a nil
interface method call, i.e. a panic (`fault`). -/
def read (ctx : Option Bool) (w : MChan α) (r : RState) : ReadOutcome α :=
  if streamlen w ≤ r.pos ∧ w.closed = false then
    match ctx with
    | none => .fault
    | some true => readExit ctx w r
    | some false => .block
  else readExit ctx w r

/-- Iterate `read` with a nil context, collecting the returned
(value, ok) pairs; stops early on a block or fault. -/
def readN : Nat → MChan α → RState → List (α × Bool)
  | 0, _, _ => []
  | Nat.succ n, w, r =>
    match read none w r with
    | .ret x ok w' r' => (x, ok) :: readN n w' r'
    | _ => []

-- Sanity checks against the repository's tests (TestNBRead, TestTrim).
example :
    nbread (reader (new (0 : Nat))).1 (reader (new (0 : Nat))).2
      = some (((0 : Nat), false), (reader (new (0 : Nat))).1, (reader (new (0 : Nat))).2) := by
  decide

example :
    (write (reader (write (new (0 : Nat)) 1)).1 2).offset = 1 ∧
    (nbread (write (reader (write (new (0 : Nat)) 1)).1 2)
        (reader (write (new (0 : Nat)) 1)).2).map (·.1)
      = some ((2 : Nat), true) := by
  decide

/-! ### Basic lemmas about `trim` and friends -/

theorem trimStep_le_left (m p : Int) : trimStep m p ≤ m := by
  unfold trimStep
  split
  · omega
  · exact le_refl m

theorem trimStep_le_right (m p : Int) (h : 0 ≤ p) : trimStep m p ≤ p := by
  unfold trimStep
  split
  · exact le_refl p
  · rename_i hn
    rw [not_and_or] at hn
    omega

theorem foldl_trimStep_le_init :
    ∀ (l : List Int) (a : Int), l.foldl trimStep a ≤ a
  | [], a => le_refl a
  | p :: l, a =>
    le_trans (foldl_trimStep_le_init l (trimStep a p)) (trimStep_le_left a p)

theorem foldl_trimStep_le_mem :
    ∀ (l : List Int) (a e : Int), e ∈ l → 0 ≤ e → l.foldl trimStep a ≤ e := by
  intro l
  induction l with
  | nil => intro a e he _; cases he
  | cons p l ih =>
    intro a e he h0
    rcases List.mem_cons.mp he with rfl | hm
    · exact le_trans (foldl_trimStep_le_init l (trimStep a e)) (trimStep_le_right a e h0)
    · exact ih (trimStep a p) e hm h0

theorem foldl_trimStep_lb :
    ∀ (l : List Int) (a c : Int), c ≤ a → (∀ e ∈ l, 0 ≤ e → c ≤ e) →
      c ≤ l.foldl trimStep a := by
  intro l
  induction l with
  | nil => intro a c h _; exact h
  | cons p l ih =>
    intro a c h hall
    refine ih (trimStep a p) c ?_ (fun e he h0 => hall e (List.mem_cons_of_mem p he) h0)
    unfold trimStep
    split
    · rename_i hp; exact hall p (List.mem_cons_self p l) hp.1
    · exact h

theorem trimMin_le_streamlen (w : MChan α) : trimMin w ≤ (streamlen w : Int) :=
  foldl_trimStep_le_init _ _

theorem trimMin_nonneg (w : MChan α) : 0 ≤ trimMin w :=
  foldl_trimStep_lb _ _ 0 (Int.ofNat_nonneg _) (fun _ _ h => h)

theorem trimMin_le_mem {w : MChan α} {e : Int}
    (he : e ∈ w.readerpos) (h0 : 0 ≤ e) : trimMin w ≤ e :=
  foldl_trimStep_le_mem _ _ _ he h0

@[simp] theorem trim_zero (w : MChan α) : (trim w).zero = w.zero := by
  unfold trim; split <;> rfl

@[simp] theorem trim_closed (w : MChan α) : (trim w).closed = w.closed := by
  unfold trim; split <;> rfl

@[simp] theorem trim_readerpos (w : MChan α) : (trim w).readerpos = w.readerpos := by
  unfold trim; split <;> rfl

@[simp] theorem trim_streamlen (w : MChan α) : streamlen (trim w) = streamlen w := by
  have ht := trimMin_le_streamlen w
  unfold trim
  split
  · rename_i h
    simp only [streamlen, List.length_drop] at *
    omega
  · rfl

theorem trim_offset_ge (w : MChan α) : w.offset ≤ (trim w).offset := by
  unfold trim
  split
  · exact Nat.le_add_right _ _
  · exact le_refl _

theorem trim_offset_le {w : MChan α} {q : Nat}
    (h1 : w.offset ≤ q) (h2 : trimMin w ≤ (q : Int)) : (trim w).offset ≤ q := by
  unfold trim
  split
  · rename_i h
    simp only
    omega
  · exact h1

theorem trimMin_le_trim_offset (w : MChan α) : trimMin w ≤ ((trim w).offset : Int) := by
  unfold trim
  split
  · rename_i h
    simp only
    push_cast
    omega
  · rename_i h
    omega

theorem trim_items (w : MChan α) :
    (trim w).items = w.items.drop ((trim w).offset - w.offset) := by
  unfold trim
  split
  · simp only [Nat.add_sub_cancel_left]
  · simp

theorem trim_drop {w : MChan α} {q : Nat}
    (h1 : w.offset ≤ q) (h2 : (trim w).offset ≤ q) :
    (trim w).items.drop (q - (trim w).offset) = w.items.drop (q - w.offset) := by
  rw [trim_items, List.drop_drop]
  congr 1
  have := trim_offset_ge w
  omega

/-! ### Lemmas about `itemAt`, `doRead` and the derived operations -/

theorem itemAt_bounds {w : MChan α} {pos : Nat} {x : α}
    (h : itemAt w pos = some x) : w.offset ≤ pos ∧ pos < streamlen w := by
  unfold itemAt at h
  split at h
  · cases h
  · rename_i hlt
    obtain ⟨hl, _⟩ := List.getElem?_eq_some.mp h
    refine ⟨by omega, ?_⟩
    simp only [streamlen]
    omega

theorem itemAt_eq {w : MChan α} {pos : Nat}
    (h1 : w.offset ≤ pos) (hidx : pos - w.offset < w.items.length) :
    itemAt w pos = some (w.items.get ⟨pos - w.offset, hidx⟩) := by
  unfold itemAt
  rw [if_neg (by omega), List.getElem?_eq_getElem hidx]
  rfl

theorem doRead_some_inv {w : MChan α} {r : RState} {x : α} {w' : MChan α} {r' : RState}
    (h : doRead w r = some (x, w', r')) :
    itemAt w r.pos = some x ∧ r.id < w.readerpos.length ∧
    w' = trim { w with readerpos := w.readerpos.set r.id ((r.pos + 1 : Nat) : Int) } ∧
    r' = ⟨r.id, r.pos + 1⟩ := by
  unfold doRead at h
  split at h
  · cases h
  · rename_i x0 hx0
    split at h
    · rename_i hid
      simp only [Option.some.injEq, Prod.mk.injEq] at h
      obtain ⟨rfl, rfl, rfl⟩ := h
      exact ⟨hx0, hid, rfl, rfl⟩
    · cases h

theorem doRead_some_bounds {w : MChan α} {r : RState} {x : α} {w' : MChan α} {r' : RState}
    (h : doRead w r = some (x, w', r')) :
    w.offset ≤ r.pos ∧ r.pos < streamlen w :=
  itemAt_bounds (doRead_some_inv h).1

@[simp] theorem write_zero (w : MChan α) (x : α) : (write w x).zero = w.zero := by
  unfold write; rw [trim_zero]

@[simp] theorem write_closed (w : MChan α) (x : α) : (write w x).closed = w.closed := by
  unfold write; rw [trim_closed]

@[simp] theorem write_readerpos (w : MChan α) (x : α) :
    (write w x).readerpos = w.readerpos := by
  unfold write; rw [trim_readerpos]

@[simp] theorem write_streamlen (w : MChan α) (x : α) :
    streamlen (write w x) = streamlen w + 1 := by
  unfold write
  rw [trim_streamlen]
  simp [streamlen]
  omega

/-! ### Reading a closed multichan to the end -/

theorem read_closed_done {w : MChan α} {r : RState} (ctx : Option Bool)
    (hc : w.closed = true) (hp : streamlen w ≤ r.pos) :
    read ctx w r = ReadOutcome.ret w.zero false w r := by
  unfold read
  rw [if_neg (by simp [hc])]
  unfold readExit
  rw [if_pos (Or.inr hp)]

theorem readN_closed_done {w : MChan α} {r : RState} (k : Nat)
    (hc : w.closed = true) (hp : streamlen w ≤ r.pos) :
    readN k w r = List.replicate k (w.zero, false) := by
  induction k with
  | zero => rfl
  | succ k ih =>
    rw [readN, read_closed_done none hc hp]
    show (w.zero, false) :: readN k w r = _
    rw [ih, List.replicate_succ]

theorem readN_drain (w : MChan α) (r : RState) (k : Nat)
    (hc : w.closed = true) (hid : r.id < w.readerpos.length) (hop : w.offset ≤ r.pos) :
    readN ((streamlen w - r.pos) + k) w r
      = (w.items.drop (r.pos - w.offset)).map (fun x => (x, true))
        ++ List.replicate k (w.zero, false) := by
  generalize hn : streamlen w - r.pos = n
  induction n generalizing w r with
  | zero =>
    have hp : streamlen w ≤ r.pos := by omega
    rw [Nat.zero_add, readN_closed_done k hc hp,
        List.drop_eq_nil_of_le (by simp only [streamlen] at hp; omega)]
    simp
  | succ n ih =>
    have hlt : r.pos < streamlen w := by omega
    have hidx : r.pos - w.offset < w.items.length := by
      simp only [streamlen] at hlt; omega
    have hdo : doRead w r = some (w.items.get ⟨r.pos - w.offset, hidx⟩,
        trim { w with readerpos := w.readerpos.set r.id ((r.pos + 1 : Nat) : Int) },
        ⟨r.id, r.pos + 1⟩) := by
      unfold doRead
      rw [itemAt_eq hop hidx]
      exact if_pos hid
    set w' : MChan α :=
      trim { w with readerpos := w.readerpos.set r.id ((r.pos + 1 : Nat) : Int) } with hw'
    have hread : read none w r
        = ReadOutcome.ret (w.items.get ⟨r.pos - w.offset, hidx⟩) true w' ⟨r.id, r.pos + 1⟩ := by
      unfold read readExit
      rw [if_neg (by simp [hc]), if_neg (by simp; omega), hdo]
    have hsl : streamlen w' = streamlen w := by
      rw [hw', trim_streamlen]
      rfl
    have hmem : ((r.pos + 1 : Nat) : Int) ∈ w.readerpos.set r.id ((r.pos + 1 : Nat) : Int) := by
      rw [List.mem_iff_getElem]
      exact ⟨r.id, by simpa using hid, List.getElem_set_self (by simpa using hid)⟩
    have hop' : w'.offset ≤ r.pos + 1 := by
      rw [hw']
      exact trim_offset_le (Nat.le_succ_of_le hop) (trimMin_le_mem hmem (by positivity))
    have hid' : r.id < w'.readerpos.length := by
      rw [hw', trim_readerpos]
      simpa using hid
    have hcl' : w'.closed = true := by
      rw [hw', trim_closed]
      exact hc
    have hn' : streamlen w' - (r.pos + 1) = n := by rw [hsl]; omega
    have ih' := ih w' ⟨r.id, r.pos + 1⟩ hcl' hid' hop' hn'
    dsimp only at ih'
    have hdrop : w'.items.drop ((r.pos + 1) - w'.offset)
        = w.items.drop ((r.pos + 1) - w.offset) := by
      rw [hw']
      exact trim_drop (Nat.le_succ_of_le hop) (by rw [← hw']; exact hop')
    have hzero : w'.zero = w.zero := by rw [hw', trim_zero]
    have hfin : w.items.drop (r.pos - w.offset)
        = w.items.get ⟨r.pos - w.offset, hidx⟩ :: w.items.drop ((r.pos + 1) - w.offset) := by
      rw [show (r.pos + 1) - w.offset = (r.pos - w.offset) + 1 by omega]
      exact List.drop_eq_getElem_cons hidx
    rw [show n + 1 + k = (n + k) + 1 by omega, readN, hread]
    show (w.items.get ⟨r.pos - w.offset, hidx⟩, true) :: readN (n + k) w' ⟨r.id, r.pos + 1⟩
        = (w.items.drop (r.pos - w.offset)).map (fun x => (x, true))
          ++ List.replicate k (w.zero, false)
    rw [ih', hdrop, hzero, hfin, List.map_cons, List.cons_append]

/-- Writing to a multichan with a single fresh reader (entry `0`) never
trims, so the writes just accumulate. -/
theorem foldl_write_acc (z : α) :
    ∀ (xs acc : List α),
      List.foldl write (⟨z, false, acc, 0, [0]⟩ : MChan α) xs
        = ⟨z, false, acc ++ xs, 0, [0]⟩ := by
  intro xs
  induction xs with
  | nil => intro acc; simp [List.foldl]
  | cons x xs ih =>
    intro acc
    have hw : write (⟨z, false, acc, 0, [0]⟩ : MChan α) x
        = ⟨z, false, acc ++ [x], 0, [0]⟩ := by
      unfold write trim
      rw [if_neg]
      have : trimMin (⟨z, false, acc ++ [x], 0, [0]⟩ : MChan α) = 0 := by
        unfold trimMin trimStep streamlen
        simp only [List.foldl]
        rw [if_pos ⟨le_refl 0, by push_cast [List.length_append, List.length_singleton]; omega⟩]
      rw [this]
      omega
    rw [List.foldl_cons, hw, ih (acc ++ [x]), List.append_assoc]
    rfl

/-- C1: For every finite sequence of items written then `Close`, a
single consumer attached before any writes that calls `Read` repeatedly
receives exactly the written items, in writer order, each exactly once,
followed by `(zero, false)` on every further read. -/
theorem C1_order_preservation (z : α) (xs : List α) (k : Nat) :
    readN (xs.length + k)
        (close (List.foldl write (reader (new z)).1 xs))
        (reader (new z)).2
      = xs.map (fun x => (x, true)) ++ List.replicate k (z, false) := by
  have h1 : (reader (new z)).1 = (⟨z, false, [], 0, [0]⟩ : MChan α) := rfl
  have h2 : (reader (new z)).2 = (⟨0, 0⟩ : RState) := rfl
  rw [h1, h2, foldl_write_acc z xs [], List.nil_append]
  have hcl : close (⟨z, false, xs, 0, [0]⟩ : MChan α) = ⟨z, true, xs, 0, [0]⟩ := rfl
  rw [hcl]
  have hd := readN_drain (⟨z, true, xs, 0, [0]⟩ : MChan α) ⟨0, 0⟩ k rfl
    (by simp) (Nat.zero_le _)
  simpa [streamlen] using hd

/-- C2 counterexample: the claim says a `Write` after `Close` does
not extend the sequence.  On the code it does: writing to a freshly
closed multichan raises `streamlen` from 0 to 1. -/
theorem C2_counterexample :
    (close (new (0 : Nat))).closed = true ∧
    streamlen (write (close (new (0 : Nat))) 7) ≠ streamlen (close (new (0 : Nat))) := by
  decide

/-- C2 amended: the `closed` flag stays true under `Write` and `Close`, but
`Write` after `Close` still appends: `streamlen` always grows by one.
(`Write` never inspects `closed`.) -/
theorem C2_write_after_close (w : MChan α) (x : α) (h : w.closed = true) :
    (write w x).closed = true ∧ (close w).closed = true ∧
    streamlen (write w x) = streamlen w + 1 := by
  refine ⟨by rw [write_closed]; exact h, rfl, by rw [write_streamlen]⟩

/-- Witness for `C2_write_after_close` at a concrete closed multichan. -/
theorem C2_write_after_close_witness :
    (close (new (0 : Nat))).closed = true ∧
    ((write (close (new (0 : Nat))) 7).closed = true ∧
     (close (close (new (0 : Nat)))).closed = true ∧
     streamlen (write (close (new (0 : Nat))) 7) = streamlen (close (new (0 : Nat))) + 1) :=
  ⟨rfl, C2_write_after_close (close (new (0 : Nat))) 7 rfl⟩

/-- C3: a blocking `Read` with a nil context on an open multichan
whose reader is at end-of-stream does *not* suspend: the wait-loop
condition evaluates `ctx.Err()` on the nil context and panics.  This
contradicts the claim (and `Read`'s own doc comment "The context
argument may be nil", and the tests, which pass `nil`). -/
theorem C3_nil_context_read_faults :
    read none (reader (new (0 : Nat))).1 (reader (new (0 : Nat))).2
      = ReadOutcome.fault := by
  decide

/-- With a non-nil, non-cancelled context, the same state does suspend
on the wake condition, as the claim intended. -/
theorem read_open_empty_blocks (w : MChan α) (r : RState)
    (hp : streamlen w ≤ r.pos) (hc : w.closed = false) :
    read (some false) w r = ReadOutcome.block := by
  unfold read
  rw [if_pos ⟨hp, hc⟩]

/-- Witness for `read_open_empty_blocks`. -/
theorem read_open_empty_blocks_witness :
    streamlen (reader (new (0 : Nat))).1 ≤ (reader (new (0 : Nat))).2.pos ∧
    (reader (new (0 : Nat))).1.closed = false ∧
    read (some false) (reader (new (0 : Nat))).1 (reader (new (0 : Nat))).2
      = ReadOutcome.block :=
  ⟨by decide, rfl, read_open_empty_blocks _ _ (by decide) rfl⟩

/-- C10: a `Read` whose context is already cancelled (`Err() != nil`)
returns `(zero, false)` and leaves the multichan and the reader handle
completely unchanged — it consumes nothing even when an item is
available at the cursor. -/
theorem C10_cancelled_read_noop (w : MChan α) (r : RState) :
    read (some true) w r = ReadOutcome.ret w.zero false w r := by
  unfold read
  split
  · show readExit (some true) w r = _
    unfold readExit
    rw [if_pos (Or.inl rfl)]
  · unfold readExit
    rw [if_pos (Or.inl rfl)]

/-- C7: the `Close` operation is idempotent; after `Close` a drained consumer gets
`(zero, false)` from every `Read` (any context) and `NBRead`, with the
state untouched; a consumer with unread buffered items receives exactly
those items, in order, and then `(zero, false)` forever. -/
theorem C7_close_semantics (w : MChan α) (r : RState) (ctx : Option Bool) (k : Nat) :
    close (close w) = close w ∧
    (w.closed = true → streamlen w ≤ r.pos →
      read ctx w r = ReadOutcome.ret w.zero false w r ∧
      nbread w r = some ((w.zero, false), w, r)) ∧
    (w.closed = true → r.id < w.readerpos.length → w.offset ≤ r.pos →
      readN ((streamlen w - r.pos) + k) w r
        = (w.items.drop (r.pos - w.offset)).map (fun x => (x, true))
          ++ List.replicate k (w.zero, false)) := by
  refine ⟨rfl, fun hc hp => ⟨read_closed_done ctx hc hp, ?_⟩, fun hc hid hop => readN_drain w r k hc hid hop⟩
  unfold nbread
  rw [if_pos hp]

/-- Witness for `C7_close_semantics` at a closed multichan holding one
unread item for a drained reader at position 1. -/
theorem C7_close_semantics_witness :
    close (close (⟨0, true, [5], 0, [1]⟩ : MChan Nat)) = close (⟨0, true, [5], 0, [1]⟩ : MChan Nat) ∧
    (read none (⟨0, true, [5], 0, [1]⟩ : MChan Nat) ⟨0, 1⟩
        = ReadOutcome.ret 0 false (⟨0, true, [5], 0, [1]⟩ : MChan Nat) ⟨0, 1⟩ ∧
     nbread (⟨0, true, [5], 0, [1]⟩ : MChan Nat) ⟨0, 1⟩
        = some ((0, false), (⟨0, true, [5], 0, [1]⟩ : MChan Nat), ⟨0, 1⟩)) ∧
    readN ((streamlen (⟨0, true, [5], 0, [1]⟩ : MChan Nat) - 1) + 2)
        (⟨0, true, [5], 0, [1]⟩ : MChan Nat) ⟨0, 1⟩
      = (([5] : List Nat).drop (1 - 0)).map (fun x => (x, true))
          ++ List.replicate 2 ((0 : Nat), false) := by
  have h := C7_close_semantics (⟨0, true, [5], 0, [1]⟩ : MChan Nat) ⟨0, 1⟩ none 2
  exact ⟨h.1, h.2.1 rfl (by decide), h.2.2 rfl (by decide) (by decide)⟩

/-- C5 counterexample: the claim says a `Read`/`NBRead` after
`Dispose` fails loudly, returns no item, and leaves `readerpos`
untouched.  On the code: two readers, one item written, reader 0
disposed (its entry set to `-1`); reader 0's `NBRead` then returns
`(1, true)` and overwrites its `readerpos` entry back to `1`. -/
theorem C5_counterexample :
    (dispose (write (reader (reader (new (0 : Nat))).1).1 1) 0).readerpos = [-1, 0] ∧
    nbread (dispose (write (reader (reader (new (0 : Nat))).1).1 1) 0) ⟨0, 0⟩
      = some (((1 : Nat), true), ⟨0, false, [1], 0, [1, 0]⟩, ⟨0, 1⟩) := by
  decide

/-- C5 amended: nothing prevents using a Consumer after `Dispose`:
if its private cursor still points below end-of-sequence and at or above
the post-`Dispose` base, `NBRead` consumes the item at the cursor,
returns it with `true`, and overwrites the consumer's `readerpos` entry
(the `-1` sentinel) with `pos + 1`.  (When the cursor has fallen below
base, the same call faults on a negative slice index instead.) -/
theorem C5_dispose_not_enforced (w : MChan α) (i pos : Nat)
    (hid : i < w.readerpos.length)
    (hop : (dispose w i).offset ≤ pos) (hlt : pos < streamlen w) :
    ∃ x w', nbread (dispose w i) ⟨i, pos⟩ = some ((x, true), w', ⟨i, pos + 1⟩) ∧
      w'.readerpos[i]? = some ((pos + 1 : Nat) : Int) := by
  set wd : MChan α := dispose w i with hwd
  have hsl : streamlen wd = streamlen w := by
    rw [hwd]
    unfold dispose
    rw [trim_streamlen]
    rfl
  have hlt' : pos < streamlen wd := by omega
  have hidx : pos - wd.offset < wd.items.length := by
    have : streamlen wd = wd.offset + wd.items.length := rfl
    omega
  have hid' : i < wd.readerpos.length := by
    rw [hwd]
    unfold dispose
    rw [trim_readerpos]
    simpa using hid
  have hdo : doRead wd ⟨i, pos⟩ = some (wd.items.get ⟨pos - wd.offset, hidx⟩,
      trim { wd with readerpos := wd.readerpos.set i ((pos + 1 : Nat) : Int) },
      ⟨i, pos + 1⟩) := by
    unfold doRead
    rw [itemAt_eq hop hidx]
    exact if_pos hid'
  refine ⟨wd.items.get ⟨pos - wd.offset, hidx⟩,
    trim { wd with readerpos := wd.readerpos.set i ((pos + 1 : Nat) : Int) }, ?_, ?_⟩
  · unfold nbread
    rw [if_neg (by dsimp only; omega), hdo]
  · rw [trim_readerpos]
    have hlen : i < (wd.readerpos.set i ((pos + 1 : Nat) : Int)).length := by
      simpa using hid'
    rw [List.getElem?_eq_getElem hlen, List.getElem_set_self hlen]

/-- Witness for `C5_dispose_not_enforced` at the counterexample state. -/
theorem C5_dispose_not_enforced_witness :
    (0 < (write (reader (reader (new (0 : Nat))).1).1 1).readerpos.length) ∧
    ((dispose (write (reader (reader (new (0 : Nat))).1).1 1) 0).offset ≤ 0) ∧
    (0 < streamlen (write (reader (reader (new (0 : Nat))).1).1 1)) ∧
    ∃ x w', nbread (dispose (write (reader (reader (new (0 : Nat))).1).1 1) 0) ⟨0, 0⟩
        = some ((x, true), w', ⟨0, 0 + 1⟩) ∧
      w'.readerpos[0]? = some ((0 + 1 : Nat) : Int) :=
  ⟨by decide, by decide, by decide,
   C5_dispose_not_enforced (write (reader (reader (new (0 : Nat))).1).1 1) 0 0
     (by decide) (by decide) (by decide)⟩

/-- C8: for a consumer that has caught up with an open multichan
(`pos = streamlen`, active entry at most `pos`), `NBRead` returns
`(zero, false)` without touching the state; after one `Write x` the next
`NBRead` returns `(x, true)` exactly once, and the following `NBRead`
returns `(zero, false)` again until another `Write`. -/
theorem C8_nbread_semantics (w : MChan α) (r : RState) (x : α) (e : Int)
    (hid : r.id < w.readerpos.length)
    (he : w.readerpos[r.id]? = some e) (he0 : 0 ≤ e) (hep : e ≤ (r.pos : Int))
    (hpos : r.pos = streamlen w) (hos : w.offset ≤ r.pos) :
    nbread w r = some ((w.zero, false), w, r) ∧
    ∃ w₂, nbread (write w x) r = some ((x, true), w₂, ⟨r.id, r.pos + 1⟩) ∧
      streamlen w₂ = streamlen w + 1 ∧ w₂.zero = w.zero ∧
      nbread w₂ ⟨r.id, r.pos + 1⟩ = some ((w.zero, false), w₂, ⟨r.id, r.pos + 1⟩) := by
  have hmem : e ∈ w.readerpos := by
    obtain ⟨h, hget⟩ := List.getElem?_eq_some.mp he
    exact hget ▸ List.getElem_mem h
  constructor
  · unfold nbread
    rw [if_pos (le_of_eq hpos.symm)]
  · set w₁ : MChan α := write w x with hw₁
    have hsl1 : streamlen w₁ = streamlen w + 1 := by rw [hw₁, write_streamlen]
    have hrp1 : w₁.readerpos = w.readerpos := by rw [hw₁, write_readerpos]
    have hz1 : w₁.zero = w.zero := by rw [hw₁, write_zero]
    have hog : w.offset ≤ w₁.offset :=
      trim_offset_ge { w with items := w.items ++ [x] }
    have hop1 : w₁.offset ≤ r.pos := by
      rw [hw₁]
      exact trim_offset_le hos (le_trans (trimMin_le_mem hmem he0) hep)
    have hidx1 : r.pos - w₁.offset < w₁.items.length := by
      have : streamlen w₁ = w₁.offset + w₁.items.length := rfl
      omega
    have h4 : w₁.items = (w.items ++ [x]).drop (w₁.offset - w.offset) := trim_items _
    have hq : w₁.items[r.pos - w₁.offset]? = some x := by
      rw [h4, List.getElem?_drop,
          show (w₁.offset - w.offset) + (r.pos - w₁.offset) = w.items.length from by
            simp only [streamlen] at hpos; omega]
      exact List.getElem?_concat_length _ _
    have hval : w₁.items.get ⟨r.pos - w₁.offset, hidx1⟩ = x := by
      have h5 := List.getElem?_eq_getElem hidx1
      rw [hq] at h5
      simp only [List.get_eq_getElem]
      exact (Option.some.inj h5).symm
    have hget : itemAt w₁ r.pos = some x := by
      rw [itemAt_eq hop1 hidx1, hval]
    have hid1 : r.id < w₁.readerpos.length := by rw [hrp1]; exact hid
    set w₂ : MChan α :=
      trim { w₁ with readerpos := w₁.readerpos.set r.id ((r.pos + 1 : Nat) : Int) } with hw₂
    have hdo1 : doRead w₁ r = some (x, w₂, ⟨r.id, r.pos + 1⟩) := by
      unfold doRead
      rw [hget]
      exact if_pos hid1
    have hsl2 : streamlen w₂ = streamlen w + 1 := by
      rw [hw₂, trim_streamlen]
      rw [show streamlen { w₁ with readerpos := w₁.readerpos.set r.id ((r.pos + 1 : Nat) : Int) }
            = streamlen w₁ from rfl]
      exact hsl1
    have hz2 : w₂.zero = w.zero := by
      rw [hw₂, trim_zero]
      exact hz1
    refine ⟨w₂, ?_, hsl2, hz2, ?_⟩
    · unfold nbread
      rw [if_neg (by omega), hdo1]
    · have hfin : streamlen w₂ ≤ (⟨r.id, r.pos + 1⟩ : RState).pos := by
        show streamlen w₂ ≤ r.pos + 1
        omega
      unfold nbread
      rw [if_pos hfin, hz2]

/-- Witness for `C8_nbread_semantics` at a fresh multichan with one
reader and the written item `5`. -/
theorem C8_nbread_semantics_witness :
    nbread (reader (new (0 : Nat))).1 ⟨0, 0⟩
      = some (((0 : Nat), false), (reader (new (0 : Nat))).1, ⟨0, 0⟩) ∧
    ∃ w₂, nbread (write (reader (new (0 : Nat))).1 5) ⟨0, 0⟩
        = some (((5 : Nat), true), w₂, ⟨0, 0 + 1⟩) ∧
      streamlen w₂ = streamlen (reader (new (0 : Nat))).1 + 1 ∧
      w₂.zero = (reader (new (0 : Nat))).1.zero ∧
      nbread w₂ ⟨0, 0 + 1⟩ = some (((0 : Nat), false), w₂, ⟨0, 0 + 1⟩) :=
  C8_nbread_semantics (reader (new (0 : Nat))).1 ⟨0, 0⟩ 5 0
    (by decide) (by decide) (by decide) (by decide) (by decide) (by decide)

/-! ### Whole-system states, steps and reachability

A `Sys` is the shared `W` state together with the private `pos` field of
every reader handle ever created (`rs`, indexed by reader id).  `Step`
has one constructor per state-mutating operation of the library; the
non-mutating paths (failed `NBRead`, `Read` returning `(zero, false)`,
blocking) leave the state unchanged and need no constructor.  A read
that consumes an item is `readok`, guarded by `doRead` succeeding, which
is exactly the non-panicking executions of the Go code. -/

structure Sys (α : Type) where
  w : MChan α
  rs : List Nat
deriving DecidableEq

inductive Step : Sys α → Sys α → Prop where
  | wr (s : Sys α) (x : α) : Step s ⟨write s.w x, s.rs⟩
  | cl (s : Sys α) : Step s ⟨close s.w, s.rs⟩
  | att (s : Sys α) : Step s ⟨(reader s.w).1, s.rs ++ [s.w.offset]⟩
  | disp (s : Sys α) (i : Nat) (h : i < s.w.readerpos.length) :
      Step s ⟨dispose s.w i, s.rs⟩
  | readok (s : Sys α) (i : Nat) (x : α) (w' : MChan α) (r' : RState)
      (h : i < s.rs.length)
      (hd : doRead s.w ⟨i, s.rs.get ⟨i, h⟩⟩ = some (x, w', r')) :
      Step s ⟨w', s.rs.set i r'.pos⟩

inductive Reach (z : α) : Sys α → Prop where
  | init : Reach z ⟨new z, []⟩
  | step {s s' : Sys α} : Reach z s → Step s s' → Reach z s'

inductive Steps : Sys α → Sys α → Prop where
  | refl (s : Sys α) : Steps s s
  | tail {a b c : Sys α} : Steps a b → Step b c → Steps a c

/-! ### The minimum active cursor -/

/-- The minimum `readerpos` entry among active (non-disposed, i.e.
non-negative) readers; `0` when there is none. -/
def minActiveCursor (w : MChan α) : Int :=
  match w.readerpos.filter (fun p => decide (0 ≤ p)) with
  | [] => 0
  | p :: ps => ps.foldl min p

/-- Some reader entry is active (not the `-1` disposed sentinel). -/
def HasActive (w : MChan α) : Prop := ∃ e ∈ w.readerpos, 0 ≤ e

theorem foldl_min_le_init : ∀ (l : List Int) (a : Int), l.foldl min a ≤ a
  | [], a => le_refl a
  | p :: l, a => le_trans (foldl_min_le_init l (min a p)) (min_le_left a p)

theorem foldl_min_le_mem :
    ∀ (l : List Int) (a e : Int), e ∈ l → l.foldl min a ≤ e := by
  intro l
  induction l with
  | nil => intro a e he; cases he
  | cons p l ih =>
    intro a e he
    rcases List.mem_cons.mp he with rfl | hm
    · exact le_trans (foldl_min_le_init l (min a e)) (min_le_right a e)
    · exact ih (min a p) e hm

theorem foldl_min_mem_or_init :
    ∀ (l : List Int) (a : Int), l.foldl min a = a ∨ l.foldl min a ∈ l := by
  intro l
  induction l with
  | nil => intro a; exact Or.inl rfl
  | cons p l ih =>
    intro a
    rw [List.foldl_cons]
    rcases ih (min a p) with h | h
    · rcases le_total a p with hap | hpa
      · exact Or.inl (by rw [h, min_eq_left hap])
      · exact Or.inr (List.mem_cons.mpr (Or.inl (by rw [h, min_eq_right hpa])))
    · exact Or.inr (List.mem_cons_of_mem p h)

theorem minActiveCursor_le {w : MChan α} {e : Int}
    (he : e ∈ w.readerpos) (h0 : 0 ≤ e) : minActiveCursor w ≤ e := by
  have hf : e ∈ w.readerpos.filter (fun p => decide (0 ≤ p)) :=
    List.mem_filter.mpr ⟨he, by simpa using h0⟩
  unfold minActiveCursor
  split
  · rename_i heq
    rw [heq] at hf
    cases hf
  · rename_i p ps heq
    rw [heq] at hf
    rcases List.mem_cons.mp hf with rfl | hm
    · exact foldl_min_le_init ps e
    · exact foldl_min_le_mem ps p e hm

theorem minActiveCursor_mem {w : MChan α} (h : HasActive w) :
    minActiveCursor w ∈ w.readerpos ∧ 0 ≤ minActiveCursor w := by
  obtain ⟨e, he, h0⟩ := h
  have hf : e ∈ w.readerpos.filter (fun p => decide (0 ≤ p)) :=
    List.mem_filter.mpr ⟨he, by simpa using h0⟩
  unfold minActiveCursor
  split
  · rename_i heq
    rw [heq] at hf
    cases hf
  · rename_i p ps heq
    have hmem : ps.foldl min p ∈ p :: ps := by
      rcases foldl_min_mem_or_init ps p with h1 | h1
      · rw [h1]; exact List.mem_cons_self _ _
      · exact List.mem_cons_of_mem p h1
    rw [← heq] at hmem
    have h2 := List.mem_filter.mp hmem
    exact ⟨h2.1, by simpa using h2.2⟩

theorem minActiveCursor_eq_zero {w : MChan α} (h : ¬ HasActive w) :
    minActiveCursor w = 0 := by
  unfold minActiveCursor
  split
  · rfl
  · rename_i p ps heq
    exfalso
    apply h
    have hm : p ∈ w.readerpos.filter (fun q => decide (0 ≤ q)) := by
      rw [heq]; exact List.mem_cons_self _ _
    have h2 := List.mem_filter.mp hm
    exact ⟨p, h2.1, by simpa using h2.2⟩

theorem minActiveCursor_le_trimMin {w : MChan α}
    (hb : ∀ e ∈ w.readerpos, e ≤ (streamlen w : Int)) (h : HasActive w) :
    minActiveCursor w ≤ trimMin w := by
  obtain ⟨hmem, _⟩ := minActiveCursor_mem h
  exact foldl_trimStep_lb _ _ _ (hb _ hmem)
    (fun e he he0 => minActiveCursor_le he he0)

theorem trim_offset_le_int {w : MChan α} {q : Int}
    (h1 : (w.offset : Int) ≤ q) (h2 : trimMin w ≤ q) :
    ((trim w).offset : Int) ≤ q := by
  unfold trim
  split
  · simp only
    push_cast
    omega
  · exact h1

/-! ### The reachable-state invariant -/

/-- Invariant of reachable `W` states:
1. `base` (= `offset`) never exceeds the end of the stream;
2. every `readerpos` entry is at most the end of the stream;
3. every *positive* entry (a reader that has completed a read) is at
   least `base`;
4. when some active reader exists, the minimum active entry is at most
   `base`. -/
def WInv (w : MChan α) : Prop :=
  w.offset ≤ streamlen w ∧
  (∀ e ∈ w.readerpos, e ≤ (streamlen w : Int)) ∧
  (∀ e ∈ w.readerpos, 0 < e → (w.offset : Int) ≤ e) ∧
  (HasActive w → minActiveCursor w ≤ (w.offset : Int))

theorem winv_trim {w : MChan α}
    (h1 : w.offset ≤ streamlen w)
    (h2 : ∀ e ∈ w.readerpos, e ≤ (streamlen w : Int))
    (h3 : ∀ e ∈ w.readerpos, 0 < e → (w.offset : Int) ≤ e) :
    WInv (trim w) := by
  have hts := trim_streamlen w
  have htr := trim_readerpos w
  refine ⟨?_, ?_, ?_, ?_⟩
  · rw [hts]
    exact trim_offset_le h1 (trimMin_le_streamlen w)
  · intro e he
    rw [hts]
    exact h2 e (htr ▸ he)
  · intro e he h0
    rw [htr] at he
    exact trim_offset_le_int (h3 e he h0) (trimMin_le_mem he (le_of_lt h0))
  · intro hact
    have hmac : minActiveCursor (trim w) = minActiveCursor w := by
      unfold minActiveCursor
      rw [htr]
    have hact' : HasActive w := by
      obtain ⟨e, he, h0⟩ := hact
      exact ⟨e, htr ▸ he, h0⟩
    rw [hmac]
    exact le_trans (minActiveCursor_le_trimMin h2 hact') (trimMin_le_trim_offset w)

theorem winv_new (z : α) : WInv (new z) := by
  refine ⟨Nat.le_refl _, ?_, ?_, ?_⟩
  · intro e he; cases he
  · intro e he; cases he
  · intro hact
    obtain ⟨e, he, _⟩ := hact
    cases he

theorem winv_close {w : MChan α} (h : WInv w) : WInv (close w) := h

theorem winv_write {w : MChan α} (h : WInv w) (x : α) : WInv (write w x) := by
  obtain ⟨h1, h2, h3, _⟩ := h
  have hsl : streamlen { w with items := w.items ++ [x] } = streamlen w + 1 := by
    simp only [streamlen, List.length_append, List.length_singleton]
    omega
  refine winv_trim ?_ ?_ ?_
  · rw [hsl]
    exact Nat.le_succ_of_le h1
  · intro e he
    rw [hsl]
    have := h2 e he
    push_cast
    omega
  · exact h3

theorem winv_dispose {w : MChan α} (h : WInv w) (i : Nat) : WInv (dispose w i) := by
  obtain ⟨h1, h2, h3, _⟩ := h
  refine winv_trim h1 ?_ ?_
  · intro e he
    rcases List.mem_or_eq_of_mem_set he with hm | rfl
    · exact h2 e hm
    · have : (0 : Int) ≤ (streamlen { w with readerpos := w.readerpos.set i (-1) } : Int) := by
        positivity
      omega
  · intro e he h0
    rcases List.mem_or_eq_of_mem_set he with hm | rfl
    · exact h3 e hm h0
    · omega

theorem winv_doRead {w : MChan α} {r : RState} {x : α} {w' : MChan α} {r' : RState}
    (h : WInv w) (hd : doRead w r = some (x, w', r')) : WInv w' := by
  obtain ⟨h1, h2, h3, _⟩ := h
  obtain ⟨hitem, hid, hw', _⟩ := doRead_some_inv hd
  obtain ⟨hop, hlt⟩ := itemAt_bounds hitem
  rw [hw']
  refine winv_trim h1 ?_ ?_
  · intro e he
    rcases List.mem_or_eq_of_mem_set he with hm | rfl
    · exact h2 e hm
    · show ((r.pos + 1 : Nat) : Int) ≤ ((streamlen w : Nat) : Int)
      push_cast
      omega
  · intro e he h0
    rcases List.mem_or_eq_of_mem_set he with hm | rfl
    · exact h3 e hm h0
    · show (w.offset : Int) ≤ ((r.pos + 1 : Nat) : Int)
      push_cast
      omega

theorem winv_attach {w : MChan α} (h : WInv w) : WInv ((reader w).1) := by
  obtain ⟨h1, h2, h3, _⟩ := h
  have hz : (0 : Int) ∈ w.readerpos ++ [(0 : Int)] :=
    List.mem_append_right _ (List.mem_singleton.mpr rfl)
  refine ⟨h1, ?_, ?_, ?_⟩
  · intro e he
    rcases List.mem_append.mp he with hm | hm
    · exact h2 e hm
    · rw [List.mem_singleton.mp hm]
      positivity
  · intro e he h0
    rcases List.mem_append.mp he with hm | hm
    · exact h3 e hm h0
    · rw [List.mem_singleton.mp hm] at h0
      omega
  · intro _
    have hle : minActiveCursor ((reader w).1) ≤ (0 : Int) :=
      minActiveCursor_le (w := (reader w).1) hz (le_refl 0)
    have : (0 : Int) ≤ ((reader w).1.offset : Int) := by positivity
    omega

/-- Every reachable `W` state satisfies `WInv`. -/
theorem reach_winv {z : α} {s : Sys α} (h : Reach z s) : WInv s.w := by
  induction h with
  | init => exact winv_new z
  | step _ hst ih =>
    cases hst with
    | wr x => exact winv_write ih x
    | cl => exact winv_close ih
    | att => exact winv_attach ih
    | disp i _ => exact winv_dispose ih i
    | readok i x w' r' hl hd => exact winv_doRead ih hd

/-- C4 counterexample: the claim says `base` never exceeds the
minimum `readerpos` entry among active readers.  Reachable refutation:
`Write(7)` with no readers trims everything (`offset = 1`), then
`Reader()` records a `0` entry — an active entry strictly below
`base`. -/
theorem C4_counterexample :
    Reach (0 : Nat) ⟨⟨0, false, [], 1, [0]⟩, [1]⟩ ∧
    (0 : Int) ∈ (⟨0, false, [], 1, [0]⟩ : MChan Nat).readerpos ∧ (0 : Int) ≤ 0 ∧
    ¬(((⟨0, false, [], 1, [0]⟩ : MChan Nat).offset : Int) ≤ 0) := by
  refine ⟨?_, by decide, le_refl 0, by decide⟩
  have h2 := Reach.step (Reach.step (Reach.init (z := (0 : Nat))) (Step.wr _ 7)) (Step.att _)
  have he : (⟨(reader (write (new (0 : Nat)) 7)).1,
      [] ++ [(write (new (0 : Nat)) 7).offset]⟩ : Sys Nat)
      = ⟨⟨0, false, [], 1, [0]⟩, [1]⟩ := by decide
  rw [← he]
  exact h2

/-- C4 amended: in every reachable state, `base` never exceeds the
end of the sequence, and `base` never exceeds any *positive* active
`readerpos` entry (one belonging to a consumer that has completed a
read).  A freshly attached consumer's entry is `0` and may lie below
`base` until its first read. -/
theorem C4_base_invariant {z : α} {s : Sys α} (h : Reach z s) :
    s.w.offset ≤ streamlen s.w ∧
    ∀ e ∈ s.w.readerpos, 0 < e → (s.w.offset : Int) ≤ e := by
  obtain ⟨h1, _, h3, _⟩ := reach_winv h
  exact ⟨h1, h3⟩

/-- Witness for `C4_base_invariant` at the initial state. -/
theorem C4_base_invariant_witness :
    (⟨new (0 : Nat), []⟩ : Sys Nat).w.offset ≤ streamlen (⟨new (0 : Nat), []⟩ : Sys Nat).w ∧
    ∀ e ∈ (⟨new (0 : Nat), []⟩ : Sys Nat).w.readerpos, 0 < e →
      ((⟨new (0 : Nat), []⟩ : Sys Nat).w.offset : Int) ≤ e :=
  C4_base_invariant Reach.init

/-- C9: in every reachable state the retained item count is at most
end-of-sequence minus the minimum active cursor (end-of-sequence itself
when no reader is active, since `minActiveCursor` is then `0`); and once
every active reader's entry is beyond a global position `p`, the item at
`p` is no longer retained (`p < base`). -/
theorem C9_compaction_correct {z : α} {s : Sys α} (h : Reach z s) :
    ((s.w.items.length : Int) ≤ (streamlen s.w : Int) - minActiveCursor s.w) ∧
    (∀ p : Nat, HasActive s.w → (∀ e ∈ s.w.readerpos, 0 ≤ e → (p : Int) < e) →
      p < s.w.offset) := by
  obtain ⟨h1, h2, h3, h4⟩ := reach_winv h
  have hlen : streamlen s.w = s.w.offset + s.w.items.length := rfl
  constructor
  · by_cases hact : HasActive s.w
    · have h5 := h4 hact
      omega
    · rw [minActiveCursor_eq_zero hact]
      omega
  · intro p hact hall
    obtain ⟨hmem, h0⟩ := minActiveCursor_mem hact
    have h5 := h4 hact
    have h6 := hall _ hmem h0
    omega

/-- Witness for `C9_compaction_correct` at the initial state. -/
theorem C9_compaction_correct_witness :
    (((⟨new (0 : Nat), []⟩ : Sys Nat).w.items.length : Int)
        ≤ (streamlen (⟨new (0 : Nat), []⟩ : Sys Nat).w : Int)
          - minActiveCursor (⟨new (0 : Nat), []⟩ : Sys Nat).w) ∧
    (∀ p : Nat, HasActive (⟨new (0 : Nat), []⟩ : Sys Nat).w →
      (∀ e ∈ (⟨new (0 : Nat), []⟩ : Sys Nat).w.readerpos, 0 ≤ e → (p : Int) < e) →
      p < (⟨new (0 : Nat), []⟩ : Sys Nat).w.offset) :=
  C9_compaction_correct Reach.init

/-- C6: the `Reader` operation returns a handle whose read cursor is the current
`base` (`offset`), not end-of-sequence; along any later evolution of the
system the new reader's private cursor never drops below that
attach-time base, and every successful read returns exactly the item at
the cursor's global position and advances the cursor by one — so the
reader consumes consecutive positions from the attach-time base onward
and never an already-discarded position below it. -/
theorem C6_attach_starts_at_base (s₀ s : Sys α)
    (hs : Steps ⟨(reader s₀.w).1, s₀.rs ++ [s₀.w.offset]⟩ s) :
    (reader s₀.w).2.pos = s₀.w.offset ∧
    ∃ hn : s₀.rs.length < s.rs.length,
      s₀.w.offset ≤ s.rs.get ⟨s₀.rs.length, hn⟩ ∧
      ∀ x w' r',
        doRead s.w ⟨s₀.rs.length, s.rs.get ⟨s₀.rs.length, hn⟩⟩ = some (x, w', r') →
        itemAt s.w (s.rs.get ⟨s₀.rs.length, hn⟩) = some x ∧
        r' = ⟨s₀.rs.length, s.rs.get ⟨s₀.rs.length, hn⟩ + 1⟩ := by
  refine ⟨rfl, ?_⟩
  have key : ∃ hn : s₀.rs.length < s.rs.length,
      s₀.w.offset ≤ s.rs.get ⟨s₀.rs.length, hn⟩ := by
    induction hs with
    | refl =>
      refine ⟨by simp, ?_⟩
      simp only [List.get_eq_getElem]
      rw [List.getElem_concat_length _ _ _ rfl]
    | tail hab hbc ih =>
      obtain ⟨hn, hge⟩ := ih
      cases hbc with
      | wr x => exact ⟨hn, hge⟩
      | cl => exact ⟨hn, hge⟩
      | att =>
        refine ⟨by simp only [List.length_append]; omega, ?_⟩
        simp only [List.get_eq_getElem] at hge ⊢
        rw [List.getElem_append_left hn]
        exact hge
      | disp i _ => exact ⟨hn, hge⟩
      | readok i x w' r' hl hd =>
        refine ⟨by simpa using hn, ?_⟩
        simp only [List.get_eq_getElem] at hge ⊢
        by_cases hi : i = s₀.rs.length
        · subst hi
          rw [List.getElem_set_self (by simpa using hn)]
          obtain ⟨_, _, _, hr'⟩ := doRead_some_inv hd
          rw [hr']
          simp only [List.get_eq_getElem] at *
          omega
        · rw [List.getElem_set_ne hi]
          exact hge
  obtain ⟨hn, hge⟩ := key
  refine ⟨hn, hge, ?_⟩
  intro x w' r' hd
  obtain ⟨hitem, _, _, hr'⟩ := doRead_some_inv hd
  exact ⟨hitem, hr'⟩

/-- Witness for `C6_attach_starts_at_base`: the spec's late-attachment
scenario — `Write(1)` with no readers (discarded at once), `Reader()`,
then one more step `Write(2)`. -/
theorem C6_attach_starts_at_base_witness :
    ((reader (⟨(0 : Nat), false, [], 1, []⟩ : MChan Nat)).2.pos
        = (⟨(0 : Nat), false, [], 1, []⟩ : MChan Nat).offset) ∧
    ∃ hn : (0 : Nat) < ([1] : List Nat).length,
      (⟨(0 : Nat), false, [], 1, []⟩ : MChan Nat).offset ≤ ([1] : List Nat).get ⟨0, hn⟩ ∧
      ∀ x w' r',
        doRead (⟨(0 : Nat), false, [2], 1, [0]⟩ : MChan Nat) ⟨0, ([1] : List Nat).get ⟨0, hn⟩⟩
          = some (x, w', r') →
        itemAt (⟨(0 : Nat), false, [2], 1, [0]⟩ : MChan Nat) (([1] : List Nat).get ⟨0, hn⟩)
          = some x ∧
        r' = ⟨0, ([1] : List Nat).get ⟨0, hn⟩ + 1⟩ := by
  have hstep : Steps
      (⟨(reader (⟨(0 : Nat), false, [], 1, []⟩ : MChan Nat)).1,
        ([] : List Nat) ++ [(⟨(0 : Nat), false, [], 1, []⟩ : MChan Nat).offset]⟩ : Sys Nat)
      ⟨⟨(0 : Nat), false, [2], 1, [0]⟩, [1]⟩ := by
    have h1 := Steps.refl
      (⟨(reader (⟨(0 : Nat), false, [], 1, []⟩ : MChan Nat)).1,
        ([] : List Nat) ++ [(⟨(0 : Nat), false, [], 1, []⟩ : MChan Nat).offset]⟩ : Sys Nat)
    have h2 := Steps.tail h1 (Step.wr _ 2)
    have he : (⟨write (⟨(reader (⟨(0 : Nat), false, [], 1, []⟩ : MChan Nat)).1,
          ([] : List Nat) ++ [(⟨(0 : Nat), false, [], 1, []⟩ : MChan Nat).offset]⟩ : Sys Nat).w 2,
        (⟨(reader (⟨(0 : Nat), false, [], 1, []⟩ : MChan Nat)).1,
          ([] : List Nat) ++ [(⟨(0 : Nat), false, [], 1, []⟩ : MChan Nat).offset]⟩ : Sys Nat).rs⟩ : Sys Nat)
        = ⟨⟨(0 : Nat), false, [2], 1, [0]⟩, [1]⟩ := by decide
    rw [← he]
    exact h2
  have h := C6_attach_starts_at_base
    (⟨(⟨(0 : Nat), false, [], 1, []⟩ : MChan Nat), ([] : List Nat)⟩ : Sys Nat)
    ⟨⟨(0 : Nat), false, [2], 1, [0]⟩, [1]⟩ hstep
  exact h

end Multichan
